import Mathlib

/-!
Shallow embedding of `src/Programs/Magnetic-Field Programs/Bifilar-Coil Placement.py`.

The computational core of the program consists of two pure functions:

* `bz_from_loop(I, R, z0, z)` — axial magnetic field of a single current loop,
* `total_bz(z_range, spacing, turns, R, I)` — accumulated field of two matched
  coils centred at `-spacing/2` and `+spacing/2`, looped `int(turns)` times over
  the sample grid.

Modelling choices: Python floats are modelled by real numbers; `numpy` arrays by
lists of reals, with the in-place `bz += array` updates modelled as elementwise
addition (`List.zipWith`); the Python truncation `int(turns)` by `pyInt`
(floor for nonnegative arguments, ceiling for negative ones); `np.zeros_like`
by mapping the constant `0` over the grid; and `np.linspace(a, b, n)` by
`linspace`, the `n` evenly spaced points `a + (b - a) * i / (n - 1)`.
-/

open Real

/-- Python `int()` applied to a real number: truncation toward zero. -/
noncomputable def pyInt (t : ℝ) : ℤ := if 0 ≤ t then ⌊t⌋ else ⌈t⌉

/-- The constant `mu_0 = 4 * np.pi * 1e-7` computed inside `bz_from_loop`. -/
noncomputable def mu_0 : ℝ := 4 * Real.pi * 1e-7

/-- `bz_from_loop(I, R, z0, z)`:
`(mu_0 * I * R**2) / (2 * ((R**2 + (z - z0)**2)**(1.5)))`. -/
noncomputable def bz_from_loop (I R z0 z : ℝ) : ℝ :=
  (mu_0 * I * R ^ 2) / (2 * ((R ^ 2 + (z - z0) ^ 2) ^ (1.5 : ℝ)))

/-- `total_bz(z_range, spacing, turns, R, I)`: starts from `np.zeros_like(z_range)`
and, for each `n in range(int(turns))`, adds elementwise the single-loop fields of
the coils at `z1 = -spacing/2` and `z2 = spacing/2`. -/
noncomputable def total_bz (z_range : List ℝ) (spacing turns R I : ℝ) : List ℝ :=
  (List.range (pyInt turns).toNat).foldl
    (fun bz _ =>
      let z1 : ℝ := -spacing / 2
      let z2 : ℝ := spacing / 2
      let bz1 := List.zipWith (fun a b => a + b) bz
        (z_range.map (fun zv => bz_from_loop I R z1 zv))
      List.zipWith (fun a b => a + b) bz1
        (z_range.map (fun zv => bz_from_loop I R z2 zv)))
    (z_range.map (fun _ => (0 : ℝ)))

/-- The accumulation of `total_bz` at a single grid point: the same loop,
tracked at one evaluation position `z`. -/
noncomputable def total_bz_point (spacing : ℝ) (nIter : ℕ) (R I z : ℝ) : ℝ :=
  (List.range nIter).foldl
    (fun acc _ =>
      acc + bz_from_loop I R (-spacing / 2) z + bz_from_loop I R (spacing / 2) z)
    0

/-- `np.linspace(a, b, n)` with endpoint included: `a + (b - a) * i / (n - 1)`. -/
noncomputable def linspace (a b : ℝ) (n : ℕ) : List ℝ :=
  (List.range n).map (fun i : ℕ => a + (b - a) * (i : ℝ) / ((n : ℝ) - 1))

/-- The session sample grid `z = np.linspace(-0.2, 0.2, 1000)`. -/
noncomputable def zGrid : List ℝ := linspace (-0.2) 0.2 1000

/-! ### Basic lemmas about the embedding -/

lemma pyInt_natCast (n : ℕ) : pyInt (n : ℝ) = n := by
  unfold pyInt
  rw [if_pos (by positivity)]
  exact_mod_cast Int.floor_natCast n

lemma pyInt_one : pyInt (1 : ℝ) = 1 := by
  have := pyInt_natCast 1
  simpa using this

lemma pyInt_nonneg (t : ℝ) (ht : 0 ≤ t) : pyInt t = ⌊t⌋ := by
  unfold pyInt
  rw [if_pos ht]

lemma zipWith_add_maps (l : List ℝ) (g h : ℝ → ℝ) :
    List.zipWith (fun a b => a + b) (l.map g) (l.map h)
      = l.map (fun x => g x + h x) := by
  induction l with
  | nil => rfl
  | cons x xs ih => simp [ih]

lemma total_bz_aux (zr : List ℝ) (s R I : ℝ) (n : ℕ) :
    (List.range n).foldl
      (fun bz _ =>
        let z1 : ℝ := -s / 2
        let z2 : ℝ := s / 2
        let bz1 := List.zipWith (fun a b => a + b) bz
          (zr.map (fun zv => bz_from_loop I R z1 zv))
        List.zipWith (fun a b => a + b) bz1
          (zr.map (fun zv => bz_from_loop I R z2 zv)))
      (zr.map (fun _ => (0 : ℝ)))
      = zr.map (fun z => total_bz_point s n R I z) := by
  induction n with
  | zero => simp [total_bz_point]
  | succ k ih =>
    rw [List.range_succ, List.foldl_append, ih]
    simp only [List.foldl_cons, List.foldl_nil]
    rw [zipWith_add_maps, zipWith_add_maps]
    apply List.map_congr_left
    intro z _
    simp [total_bz_point, List.range_succ]

/-- `total_bz` is the pointwise accumulation mapped over the grid. -/
lemma total_bz_eq_map (zr : List ℝ) (s t R I : ℝ) :
    total_bz zr s t R I
      = zr.map (fun z => total_bz_point s (pyInt t).toNat R I z) := by
  unfold total_bz
  exact total_bz_aux zr s R I (pyInt t).toNat

/-- The pointwise accumulation is `n` times the two-coil contribution. -/
lemma total_bz_point_eq (s : ℝ) (n : ℕ) (R I z : ℝ) :
    total_bz_point s n R I z
      = n * (bz_from_loop I R (-s / 2) z + bz_from_loop I R (s / 2) z) := by
  induction n with
  | zero => simp [total_bz_point]
  | succ k ih =>
    unfold total_bz_point at ih ⊢
    rw [List.range_succ, List.foldl_append, ih]
    simp only [List.foldl_cons, List.foldl_nil]
    push_cast
    ring

/-! ### Claims -/

/-- C1: for every current `I`, radius `R`, loop center `z0` and evaluation
position `z`, `bz_from_loop` returns `(mu0 * I * R^2) / (2 * (R^2 + (z - z0)^2)^(3/2))`
with `mu0 = 4 * pi * 10^-7`, elementwise when `z` is a vector. -/
theorem C1_single_loop_formula (I R z0 z : ℝ) :
    bz_from_loop I R z0 z
      = (4 * Real.pi * (10 ^ 7 : ℝ)⁻¹ * I * R ^ 2)
        / (2 * ((R ^ 2 + (z - z0) ^ 2) ^ ((3 : ℝ) / 2)))
    ∧ ∀ zs : List ℝ,
        zs.map (fun zv => bz_from_loop I R z0 zv)
          = zs.map (fun zv =>
              (4 * Real.pi * (10 ^ 7 : ℝ)⁻¹ * I * R ^ 2)
                / (2 * ((R ^ 2 + (zv - z0) ^ 2) ^ ((3 : ℝ) / 2)))) := by
  have hmu : mu_0 = 4 * Real.pi * (10 ^ 7 : ℝ)⁻¹ := by
    unfold mu_0; norm_num
  have hexp : (1.5 : ℝ) = 3 / 2 := by norm_num
  constructor
  · unfold bz_from_loop; rw [hmu, hexp]
  · intro zs
    apply List.map_congr_left
    intro zv _
    unfold bz_from_loop; rw [hmu, hexp]

/-- C2: for every grid, spacing `s`, positive turn count `N`, radius and
current, `total_bz` returns at each grid point the accumulation over `N`
iterations of the two coil fields centred at `-s/2` and `s/2`, equal to
`N * (B(z; z1) + B(z; z2))`, and the output has the grid's length. -/
theorem C2_total_is_N_times_two_coils (zr : List ℝ) (s R I : ℝ) (N : ℕ)
    (_hN : 1 ≤ N) :
    total_bz zr s (N : ℝ) R I
        = zr.map (fun zv =>
            (N : ℝ) * (bz_from_loop I R (-s / 2) zv + bz_from_loop I R (s / 2) zv))
    ∧ (total_bz zr s (N : ℝ) R I).length = zr.length := by
  have h : total_bz zr s (N : ℝ) R I
      = zr.map (fun z => total_bz_point s N R I z) := by
    rw [total_bz_eq_map, pyInt_natCast]; simp
  constructor
  · rw [h]
    apply List.map_congr_left
    intro zv _
    exact total_bz_point_eq s N R I zv
  · rw [h, List.length_map]

theorem C2_witness :
    1 ≤ 1 ∧
      (total_bz [(0 : ℝ)] 1 ((1 : ℕ) : ℝ) 1 1
          = [(0 : ℝ)].map (fun zv =>
              ((1 : ℕ) : ℝ) * (bz_from_loop 1 1 (-1 / 2) zv + bz_from_loop 1 1 (1 / 2) zv))
        ∧ (total_bz [(0 : ℝ)] 1 ((1 : ℕ) : ℝ) 1 1).length = [(0 : ℝ)].length) :=
  ⟨le_refl 1, C2_total_is_N_times_two_coils [(0 : ℝ)] 1 1 1 1 (le_refl 1)⟩

/-- C4: doubling the current argument doubles every sample of `total_bz`
exactly. -/
theorem C4_current_linearity (zr : List ℝ) (s t R I : ℝ) :
    total_bz zr s t R (2 * I) = (total_bz zr s t R I).map (fun x => 2 * x) := by
  rw [total_bz_eq_map, total_bz_eq_map, List.map_map]
  apply List.map_congr_left
  intro zv _
  simp only [Function.comp_apply]
  rw [total_bz_point_eq, total_bz_point_eq]
  have hb : ∀ z0 : ℝ, bz_from_loop (2 * I) R z0 zv = 2 * bz_from_loop I R z0 zv := by
    intro z0; unfold bz_from_loop; ring
  rw [hb, hb]; ring

/-- C8: under `R > 0` the denominator `2 * (R^2 + (z - z0)^2)^1.5` of
`bz_from_loop` is strictly positive, and the division genuinely inverts it
(multiplying the result back by the denominator recovers the numerator), so
no division-by-zero guard is needed. -/
theorem C8_denominator_positive (I R z0 z : ℝ) (hR : 0 < R) :
    0 < 2 * ((R ^ 2 + (z - z0) ^ 2) ^ (1.5 : ℝ))
    ∧ bz_from_loop I R z0 z * (2 * ((R ^ 2 + (z - z0) ^ 2) ^ (1.5 : ℝ)))
        = mu_0 * I * R ^ 2 := by
  have hbase : (0 : ℝ) < R ^ 2 + (z - z0) ^ 2 := by nlinarith [sq_nonneg (z - z0)]
  have hden : (0 : ℝ) < 2 * ((R ^ 2 + (z - z0) ^ 2) ^ (1.5 : ℝ)) := by
    have := Real.rpow_pos_of_pos hbase (1.5 : ℝ)
    linarith
  exact ⟨hden, by unfold bz_from_loop; exact div_mul_cancel₀ _ (ne_of_gt hden)⟩

theorem C8_witness :
    (0 : ℝ) < 1 ∧
      (0 < 2 * (((1 : ℝ) ^ 2 + ((0 : ℝ) - 0) ^ 2) ^ (1.5 : ℝ))
        ∧ bz_from_loop 1 1 0 0 * (2 * (((1 : ℝ) ^ 2 + ((0 : ℝ) - 0) ^ 2) ^ (1.5 : ℝ)))
            = mu_0 * 1 * 1 ^ 2) :=
  ⟨by norm_num, C8_denominator_positive 1 1 0 0 (by norm_num)⟩

/-- C9: `total_bz` performs no input validation: it is a total function and,
for every real-valued parameters (including radius ≤ 0, spacing ≤ 0 or
turns < 1), it returns a full-length result sequence. -/
theorem C9_no_validation_full_length (zr : List ℝ) (s t R I : ℝ) :
    (total_bz zr s t R I).length = zr.length := by
  rw [total_bz_eq_map, List.length_map]

/-- C10: for a real turns argument `t`, `total_bz` behaves as if the turn
count were `int(t)`: for `0 ≤ t < 1` it iterates zero times and returns the
all-zeros curve, and for `t > 1` the result equals the result for `⌊t⌋`
turns. -/
theorem C10_truncated_turns (zr : List ℝ) (s R I : ℝ) :
    (∀ t : ℝ, 0 ≤ t → t < 1 → total_bz zr s t R I = zr.map (fun _ => (0 : ℝ)))
    ∧ ∀ t : ℝ, 1 < t →
        total_bz zr s t R I = total_bz zr s ((⌊t⌋ : ℤ) : ℝ) R I := by
  constructor
  · intro t ht0 ht1
    have hfloor : ⌊t⌋ = 0 := by
      rw [Int.floor_eq_zero_iff]
      exact ⟨ht0, ht1⟩
    rw [total_bz_eq_map, pyInt_nonneg t ht0, hfloor]
    simp [total_bz_point]
  · intro t ht
    have h0 : (0 : ℝ) ≤ t := by linarith
    have hfl : (0 : ℤ) ≤ ⌊t⌋ := Int.floor_nonneg.mpr h0
    rw [total_bz_eq_map, total_bz_eq_map, pyInt_nonneg t h0,
      pyInt_nonneg _ (by exact_mod_cast hfl), Int.floor_intCast]

theorem C10_witness :
    total_bz [(0 : ℝ)] 1 (1 / 2) 1 1 = [(0 : ℝ)].map (fun _ => (0 : ℝ))
    ∧ total_bz [(0 : ℝ)] 1 (5 / 2) 1 1
        = total_bz [(0 : ℝ)] 1 ((⌊(5 / 2 : ℝ)⌋ : ℤ) : ℝ) 1 1 :=
  ⟨(C10_truncated_turns [(0 : ℝ)] 1 1 1).1 (1 / 2) (by norm_num) (by norm_num),
   (C10_truncated_turns [(0 : ℝ)] 1 1 1).2 (5 / 2) (by norm_num)⟩

/-! ### Helper lemmas for the remaining claims -/

lemma mu_0_pos : 0 < mu_0 := by
  unfold mu_0
  exact mul_pos (mul_pos (by norm_num) Real.pi_pos) (by norm_num)

lemma bz_from_loop_pos (I R z0 z : ℝ) (hI : 0 < I) (hR : 0 < R) :
    0 < bz_from_loop I R z0 z := by
  unfold bz_from_loop
  have hbase : (0 : ℝ) < R ^ 2 + (z - z0) ^ 2 := by nlinarith [sq_nonneg (z - z0)]
  have hden := Real.rpow_pos_of_pos hbase (1.5 : ℝ)
  have hnum : 0 < mu_0 * I * R ^ 2 :=
    mul_pos (mul_pos mu_0_pos hI) (pow_pos hR 2)
  exact div_pos hnum (by linarith)

lemma bz_from_loop_anti (I R z0 : ℝ) (hI : 0 < I) (hR : 0 < R) {z1 z2 : ℝ}
    (h0 : z0 ≤ z1) (h12 : z1 < z2) :
    bz_from_loop I R z0 z2 < bz_from_loop I R z0 z1 := by
  unfold bz_from_loop
  have hsq : (z1 - z0) ^ 2 < (z2 - z0) ^ 2 :=
    pow_lt_pow_left₀ (by linarith) (by linarith) two_ne_zero
  have hb1 : (0 : ℝ) < R ^ 2 + (z1 - z0) ^ 2 := by nlinarith [sq_nonneg (z1 - z0)]
  have hr : (R ^ 2 + (z1 - z0) ^ 2) ^ (1.5 : ℝ)
      < (R ^ 2 + (z2 - z0) ^ 2) ^ (1.5 : ℝ) :=
    Real.rpow_lt_rpow (le_of_lt hb1) (by linarith) (by norm_num)
  have hd1 : (0 : ℝ) < 2 * ((R ^ 2 + (z1 - z0) ^ 2) ^ (1.5 : ℝ)) := by
    have := Real.rpow_pos_of_pos hb1 (1.5 : ℝ)
    linarith
  have hnum : 0 < mu_0 * I * R ^ 2 :=
    mul_pos (mul_pos mu_0_pos hI) (pow_pos hR 2)
  exact div_lt_div_of_pos_left hnum hd1 (by linarith)

lemma bz_from_loop_even (I R z0 z : ℝ) :
    bz_from_loop I R (-z0) (-z) = bz_from_loop I R z0 z := by
  unfold bz_from_loop
  have h : (-z - -z0) ^ 2 = (z - z0) ^ 2 := by ring
  rw [h]

lemma total_bz_point_even (s : ℝ) (n : ℕ) (R I z : ℝ) :
    total_bz_point s n R I (-z) = total_bz_point s n R I z := by
  rw [total_bz_point_eq, total_bz_point_eq]
  have h1 : bz_from_loop I R (-s / 2) (-z) = bz_from_loop I R (s / 2) z := by
    have e : (-s / 2 : ℝ) = -(s / 2) := by ring
    rw [e, bz_from_loop_even]
  have h2 : bz_from_loop I R (s / 2) (-z) = bz_from_loop I R (-s / 2) z := by
    have e : (s / 2 : ℝ) = -(-s / 2) := by ring
    rw [e, bz_from_loop_even]
  rw [h1, h2]
  ring

lemma zGrid_length : zGrid.length = 1000 := by
  unfold zGrid linspace
  rw [List.length_map, List.length_range]

lemma zGrid_getD (i : ℕ) (hi : i < 1000) :
    zGrid.getD i 0 = -0.2 + (0.2 - -0.2) * (i : ℝ) / ((1000 : ℝ) - 1) := by
  unfold zGrid linspace
  rw [List.getD_eq_getElem _ _ (by rw [List.length_map, List.length_range]; exact hi)]
  rw [List.getElem_map, List.getElem_range]
  norm_num

lemma zGrid_getD_rev (i : ℕ) (hi : i < 1000) :
    zGrid.getD (999 - i) 0 = -(zGrid.getD i 0) := by
  rw [zGrid_getD _ (by omega), zGrid_getD _ hi]
  have hle : i ≤ 999 := by omega
  have hcast : ((999 - i : ℕ) : ℝ) = 999 - (i : ℝ) := by
    push_cast [hle]
    ring
  rw [hcast]
  ring_nf

lemma getD_map_pt (f : ℝ → ℝ) (l : List ℝ) (i : ℕ) (h : i < l.length) :
    (l.map f).getD i 0 = f (l.getD i 0) := by
  rw [List.getD_eq_getElem _ _ (by simpa using h), List.getD_eq_getElem _ _ h,
    List.getElem_map]

/-- C3: for every spacing, radius and current and every positive integer `N`,
`total_bz` with `turns = N` equals, pointwise over the sample grid, `N` times
the output of `total_bz` with `turns = 1` (exactly in the real-number model,
hence within any floating-point tolerance). -/
theorem C3_turns_scaling (s R I : ℝ) (N : ℕ) (_hN : 1 ≤ N) :
    total_bz zGrid s (N : ℝ) R I
      = (total_bz zGrid s (1 : ℝ) R I).map (fun x => (N : ℝ) * x) := by
  rw [total_bz_eq_map, total_bz_eq_map, List.map_map]
  apply List.map_congr_left
  intro zv _
  simp only [Function.comp_apply]
  rw [pyInt_natCast, pyInt_one]
  simp only [Int.toNat_one, Int.toNat_natCast]
  rw [total_bz_point_eq, total_bz_point_eq]
  push_cast
  ring

theorem C3_witness :
    1 ≤ 2 ∧
      total_bz zGrid 1 ((2 : ℕ) : ℝ) 1 1
        = (total_bz zGrid 1 (1 : ℝ) 1 1).map (fun x => ((2 : ℕ) : ℝ) * x) :=
  ⟨by norm_num, C3_turns_scaling 1 1 1 2 (by norm_num)⟩

/-- C5: for every spacing, turns, radius and current, the field curve over the
session grid is symmetric about `z = 0`: the sample at index `i` equals the
sample at index `999 - i` (the grid position `-z`). -/
theorem C5_symmetric_curve (s t R I : ℝ) (i : ℕ) (hi : i < 1000) :
    (total_bz zGrid s t R I).getD i 0
      = (total_bz zGrid s t R I).getD (999 - i) 0 := by
  rw [total_bz_eq_map,
    getD_map_pt _ _ _ (by rw [zGrid_length]; exact hi),
    getD_map_pt _ _ _ (by rw [zGrid_length]; omega),
    zGrid_getD_rev i hi, total_bz_point_even]

theorem C5_witness :
    (0 : ℕ) < 1000 ∧
      (total_bz zGrid 1 1 1 1).getD 0 0 = (total_bz zGrid 1 1 1 1).getD (999 - 0) 0 :=
  ⟨by norm_num, C5_symmetric_curve 1 1 1 1 0 (by norm_num)⟩

/-- C6: with current `I = 1` and `turns = 1`, the total field evaluated at
`z = 0` is `mu_0 * R^2 / (2 * (R^2 + (s/2)^2)^1.5) * 2`: both coils contribute
equally at the midpoint. -/
theorem C6_midpoint_value (s R : ℝ) :
    total_bz [(0 : ℝ)] s 1 R 1
      = [mu_0 * R ^ 2 / (2 * ((R ^ 2 + (s / 2) ^ 2) ^ (1.5 : ℝ))) * 2] := by
  rw [total_bz_eq_map, pyInt_one]
  simp only [Int.toNat_one, List.map_cons, List.map_nil]
  rw [total_bz_point_eq]
  have e1 : ((0 : ℝ) - -s / 2) ^ 2 = (s / 2) ^ 2 := by ring
  have e2 : ((0 : ℝ) - s / 2) ^ 2 = (s / 2) ^ 2 := by ring
  unfold bz_from_loop
  rw [e1, e2]
  norm_num
  ring

/-- C7: for positive spacing, radius and current and at least one turn, the
magnitude of the total field at a point is strictly decreasing in `z` for `z`
beyond `max R (s / 2)` on the positive axis. -/
theorem C7_monotone_falloff (s R I : ℝ) (N : ℕ) (hs : 0 < s) (hR : 0 < R)
    (hI : 0 < I) (hN : 1 ≤ N) :
    StrictAntiOn (fun z => |total_bz_point s N R I z|)
      (Set.Ioi (max R (s / 2))) := by
  intro z1 hz1 z2 hz2 h12
  simp only [Set.mem_Ioi] at hz1 hz2
  have hs2 : s / 2 < z1 := lt_of_le_of_lt (le_max_right R (s / 2)) hz1
  have hns2 : -s / 2 ≤ z1 := by linarith
  have hNpos : (0 : ℝ) < N := by
    have : 0 < N := lt_of_lt_of_le Nat.zero_lt_one hN
    exact_mod_cast this
  have hpos : ∀ z : ℝ, 0 < total_bz_point s N R I z := by
    intro z
    rw [total_bz_point_eq]
    have h1 := bz_from_loop_pos I R (-s / 2) z hI hR
    have h2 := bz_from_loop_pos I R (s / 2) z hI hR
    exact mul_pos hNpos (by linarith)
  simp only
  rw [abs_of_pos (hpos z2), abs_of_pos (hpos z1),
    total_bz_point_eq, total_bz_point_eq]
  have ha := bz_from_loop_anti I R (-s / 2) hI hR hns2 h12
  have hb := bz_from_loop_anti I R (s / 2) hI hR (le_of_lt hs2) h12
  exact mul_lt_mul_of_pos_left (add_lt_add ha hb) hNpos

theorem C7_witness :
    (0 : ℝ) < 1 ∧
      StrictAntiOn (fun z => |total_bz_point 1 1 1 1 z|)
        (Set.Ioi (max 1 ((1 : ℝ) / 2))) :=
  ⟨by norm_num,
   C7_monotone_falloff 1 1 1 1 (by norm_num) (by norm_num) (by norm_num) (le_refl 1)⟩
